import Mathlib

/-!
Verification of the rule-metadata extractor and policy store of
`src/native/regolix/src/lib.rs`.

Strings are modelled as `List Char`; the character classes model the Rust
`char` predicates on the ASCII range (all inputs of interest are ASCII).
The `while` loop of `parse_rules` advances its index by at least one line
per iteration, so it is embedded as a fuel-indexed recursion where the fuel
is the number of source lines; the adequacy of that fuel (the loop always
halts within one step per line) is proved below.
-/

namespace Regolix

/-- Strings as explicit character lists. -/
abbrev Str := List Char

/-- The opening-brace character. -/
def lbrace : Char := Char.ofNat 123

/-- The closing-brace character. -/
def rbrace : Char := Char.ofNat 125

/-- Model of Rust `char::is_whitespace` on the ASCII range. -/
def isWhite (c : Char) : Bool := c.isWhitespace

/-- The characters Rust's scanner treats as identifier characters:
`c.is_alphanumeric() || c == '_'` (ASCII range). -/
def isIdentChar (c : Char) : Bool := c.isAlphanum || c == '_'

/-- Model of `str::trim_start`. -/
def trimStart (l : Str) : Str := l.dropWhile isWhite

/-- Model of `str::trim_end`. -/
def trimEnd (l : Str) : Str := (l.reverse.dropWhile isWhite).reverse

/-- Model of `str::trim`. -/
def trim (l : Str) : Str := trimEnd (trimStart l)

/-- Model of `str::starts_with`. -/
def startsWith : Str → Str → Bool
  | _, [] => true
  | [], _ :: _ => false
  | c :: cs, p :: ps => c == p && startsWith cs ps

/-- Helper for `rustLines`: the current line is accumulated in reverse.
A line terminated by a newline has one trailing carriage return stripped;
a final unterminated line keeps it (as in Rust's `str::lines`). -/
def rustLinesAux : Str → Str → List Str
  | [], cur => if cur.isEmpty then [] else [cur.reverse]
  | c :: cs, cur =>
    if c == '\n' then
      (match cur with
       | '\r' :: cur2 => cur2.reverse
       | _ => cur.reverse) :: rustLinesAux cs []
    else
      rustLinesAux cs (c :: cur)

/-- Model of Rust `str::lines`: split at `\n` (stripping a preceding `\r`),
with no final empty line for a trailing newline and no lines at all for the
empty string. -/
def rustLines (s : Str) : List Str := rustLinesAux s []

/-- A parsed Rego rule with metadata (`RuleInfo` in the source). -/
structure RuleInfo where
  name : Str
  description : Str
  start_line : Nat
  end_line : Nat
  deriving DecidableEq

/-- Model of `extract_rule_name`: extract the rule name from a line, if it
is a rule definition.  The `default` branch mirrors
`rest.split(|c| !c.is_alphanumeric() && c != '_').next()`, whose first
element is the (possibly empty) longest leading identifier run. -/
def extract_rule_name (line0 : Str) : Option Str :=
  let line := trim line0
  if startsWith line ("default ".data) then
    let rest := trim (line.drop ("default ".data.length))
    some (rest.takeWhile isIdentChar)
  else
    let name := line.takeWhile isIdentChar
    if name.isEmpty then
      none
    else
      let rest := (line.dropWhile isIdentChar).dropWhile isWhite
      if startsWith rest (":=".data) || startsWith rest ("=".data) ||
         startsWith rest ("if ".data) || startsWith rest ("if".data ++ [lbrace]) ||
         startsWith rest ("contains ".data) then
        some name
      else
        none

/-- The inner character loop of `find_rule_end`: update the brace depth and
the found-an-opening-brace flag across one line. -/
def braceLine : Int → Bool → Str → Int × Bool
  | depth, foundOpen, [] => (depth, foundOpen)
  | depth, foundOpen, c :: rest =>
    if c == lbrace then braceLine (depth + 1) true rest
    else if c == rbrace then braceLine (depth - 1) foundOpen rest
    else braceLine depth foundOpen rest

/-- The line loop of `find_rule_end`, scanning the remaining lines with the
current 0-based index `i`; `total` is the total number of lines, returned
when no balancing line is found. -/
def findRuleEndFrom : List Str → Nat → Int → Bool → Nat → Nat
  | [], _, _, _, total => total
  | line :: more, i, depth, foundOpen, total =>
    let p := braceLine depth foundOpen line
    if p.2 && p.1 == 0 then i + 1
    else findRuleEndFrom more (i + 1) p.1 p.2 total

/-- Model of `find_rule_end`: find the 1-based end line of a rule by
counting braces from `start_idx`; falls back to the last line. -/
def find_rule_end (lines : List Str) (start_idx : Nat) : Nat :=
  findRuleEndFrom (lines.drop start_idx) start_idx 0 false lines.length

/-- Whether the brace scan of `find_rule_end` ever reaches a line end with
an opening brace seen and the depth back at zero.  `false` means the scan
runs off the end of the text. -/
def scanBalances : List Str → Int → Bool → Bool
  | [], _, _ => false
  | line :: more, depth, foundOpen =>
    let p := braceLine depth foundOpen line
    if p.2 && p.1 == 0 then true
    else scanBalances more p.1 p.2

/-- The `end_line` chosen for a recognized rule head at 0-based index `i`
whose trimmed line is `line` (lines 296-300 of the source): brace scan when
the line contains an opening brace, else the head line itself. -/
def ruleEndLine (lines : List Str) (i : Nat) (line : Str) : Nat :=
  if line.contains lbrace then find_rule_end lines i else i + 1

/-- A comment line's text is a pure section divider when it consists only
of `=`, `-` and whitespace. -/
def isDividerText (t : Str) : Bool :=
  t.all (fun c => c == '=' || c == '-' || isWhite c)

/-- Classification of one trimmed line, mirroring the branch structure of
the `while` loop of `parse_rules`. -/
inductive LineStep where
  | comment (text : Str)
  | blank
  | importOrPackage
  | ruleHead (name : Str)
  | other
  deriving DecidableEq

/-- Classify one trimmed line exactly as the loop body of `parse_rules`
tests it: comment first, then blank, then import/package, then rule-head
recognition. -/
def classifyLine (line : Str) : LineStep :=
  if startsWith line ['#'] then
    .comment (trim (line.dropWhile (fun c => c == '#')))
  else if line.isEmpty then
    .blank
  else if startsWith line ("import ".data) || startsWith line ("package ".data) then
    .importOrPackage
  else
    match extract_rule_name line with
    | some n => .ruleHead n
    | none => .other

/-- The `while` loop of `parse_rules`, with explicit fuel: each iteration
consumes one unit, and `none` is returned only when the fuel runs out while
`i` is still in range (proved impossible for fuel equal to the line count).
`pending` is `pending_comments`; `i` is the 0-based line index. -/
def parseRulesFuel : Nat → List Str → List Str → Nat → Option (List RuleInfo)
  | 0, lines, _, i => if i < lines.length then none else some []
  | fuel + 1, lines, pending, i =>
    if h : i < lines.length then
      match classifyLine (trim (lines.get ⟨i, h⟩)) with
      | .comment text =>
          parseRulesFuel fuel lines
            (if !isDividerText text then pending ++ [text] else pending) (i + 1)
      | .blank => parseRulesFuel fuel lines [] (i + 1)
      | .importOrPackage => parseRulesFuel fuel lines [] (i + 1)
      | .ruleHead ruleName =>
          (parseRulesFuel fuel lines [] (ruleEndLine lines i (trim (lines.get ⟨i, h⟩)))).map
            (fun rest =>
              { name := ruleName
                description := (pending.getLast?).getD []
                start_line := i + 1
                end_line := ruleEndLine lines i (trim (lines.get ⟨i, h⟩)) } :: rest)
      | .other => parseRulesFuel fuel lines [] (i + 1)
    else
      some []

/-- Run the scanning loop from line index `i` with pending comments
`pending`; the remaining line count is always sufficient fuel. -/
def parseFrom (lines : List Str) (pending : List Str) (i : Nat) : List RuleInfo :=
  (parseRulesFuel (lines.length - i) lines pending i).getD []

/-- Model of `parse_rules`: parse Rego source to extract rule definitions
with their metadata. -/
def parse_rules (source : Str) : List RuleInfo :=
  parseFrom (rustLines source) [] 0

/-- The policy store: the `policies` map, keyed by policy name.  A `HashMap`
is modelled as an association list with overwriting insert. -/
abbrev PolicyStore := List (Str × Str)

/-- Model of `HashMap::insert`: overwrite the entry for `name` if present,
else append it. -/
def insertPolicy : PolicyStore → Str → Str → PolicyStore
  | [], name, src => [(name, src)]
  | (k, v) :: rest, name, src =>
    if k = name then (name, src) :: rest
    else (k, v) :: insertPolicy rest name src

/-- Association-list lookup (model of `HashMap::get`). -/
def lookupAssoc {β : Type} : List (Str × β) → Str → Option β
  | [], _ => none
  | (k, v) :: rest, n => if k = n then some v else lookupAssoc rest n

/-- Verdict of the external engine's own `add_policy`; the engine is an
external collaborator, so its verdict is a parameter. -/
inductive EngineParse where
  | accepted
  | rejected (msg : Str)
  deriving DecidableEq

/-- Outcome reported to the caller by `native_add_policy`. -/
inductive AddPolicyOutcome where
  | ok
  | parseErr (msg : Str)
  deriving DecidableEq

/-- Model of `native_add_policy` (lock acquisition modelled as succeeding):
the source is inserted into the `policies` map first, then the engine is
asked to parse it; an engine rejection becomes a `parse_error` result but
the insertion is not rolled back. -/
def native_add_policy (st : PolicyStore) (name source : Str)
    (engine : EngineParse) : PolicyStore × AddPolicyOutcome :=
  let st2 := insertPolicy st name source
  match engine with
  | .accepted => (st2, .ok)
  | .rejected m => (st2, .parseErr m)

/-- Model of `native_get_rules`: run `parse_rules` afresh on the stored
source of every policy. -/
def native_get_rules (st : PolicyStore) : List (Str × List RuleInfo) :=
  st.map (fun p => (p.1, parse_rules p.2))

/-- The line loop of `find_rule_end` returns either an index past the
current one or the total line count. -/
theorem findRuleEndFrom_min (rest : List Str) :
    ∀ i d f total, min (i + 1) total ≤ findRuleEndFrom rest i d f total := by
  induction rest with
  | nil =>
    intro i d f total
    simp only [findRuleEndFrom]
    omega
  | cons line more ih =>
    intro i d f total
    simp only [findRuleEndFrom]
    split
    · omega
    · calc min (i + 1) total ≤ min (i + 1 + 1) total := by omega
        _ ≤ _ := ih (i + 1) _ _ total

/-- `find_rule_end` never points before the rule-head line. -/
theorem find_rule_end_ge (lines : List Str) (i : Nat) (h : i < lines.length) :
    i + 1 ≤ find_rule_end lines i := by
  have hm := findRuleEndFrom_min (lines.drop i) i 0 false lines.length
  rw [find_rule_end]
  omega

/-- The chosen `end_line` of a rule head never points before the head. -/
theorem ruleEndLine_ge (lines : List Str) (i : Nat) (line : Str) (h : i < lines.length) :
    i + 1 ≤ ruleEndLine lines i line := by
  rw [ruleEndLine]
  split
  · exact find_rule_end_ge lines i h
  · exact Nat.le_refl _

/-- If the brace scan never rebalances, the line loop falls through to the
total line count. -/
theorem findRuleEndFrom_of_no_balance (rest : List Str) :
    ∀ i d f total, scanBalances rest d f = false →
      findRuleEndFrom rest i d f total = total := by
  induction rest with
  | nil => intro i d f total _; rfl
  | cons line more ih =>
    intro i d f total hb
    simp only [scanBalances] at hb
    simp only [findRuleEndFrom]
    split at hb
    · cases hb
    · rename_i hcond
      rw [if_neg hcond]
      exact ih (i + 1) _ _ total hb

/-- Fuel adequacy: the scanning loop succeeds whenever the fuel covers the
remaining lines (each iteration advances the index by at least one). -/
theorem parseRulesFuel_isSome (fuel : Nat) (lines : List Str) :
    ∀ pending i, lines.length ≤ i + fuel →
      (parseRulesFuel fuel lines pending i).isSome := by
  induction fuel with
  | zero =>
    intro pending i hle
    simp only [parseRulesFuel]
    rw [if_neg (by omega)]
    rfl
  | succ n ih =>
    intro pending i hle
    simp only [parseRulesFuel]
    split
    · rename_i h
      split
      · exact ih _ (i + 1) (by omega)
      · exact ih _ (i + 1) (by omega)
      · exact ih _ (i + 1) (by omega)
      · rename_i ruleName heq
        have hend := ruleEndLine_ge lines i (trim (lines.get ⟨i, h⟩)) h
        have hs := ih [] (ruleEndLine lines i (trim (lines.get ⟨i, h⟩))) (by omega)
        cases ho : parseRulesFuel n lines [] (ruleEndLine lines i (trim (lines.get ⟨i, h⟩))) with
        | none => rw [ho] at hs; cases hs
        | some rest => rfl
      · exact ih _ (i + 1) (by omega)
    · rfl

/-- Every record emitted by the loop from index `i` has `start_line` past
`i`, has `end_line` at or after its `start_line`, and the records are in
strictly ascending `start_line` order. -/
theorem parseRulesFuel_bounds (fuel : Nat) (lines : List Str) :
    ∀ pending i rs, parseRulesFuel fuel lines pending i = some rs →
      (∀ r ∈ rs, i + 1 ≤ r.start_line ∧ r.start_line ≤ r.end_line) ∧
      List.Chain' (fun a b => a.start_line < b.start_line) rs := by
  induction fuel with
  | zero =>
    intro pending i rs h
    simp only [parseRulesFuel] at h
    split at h
    · cases h
    · cases h
      simp
  | succ n ih =>
    intro pending i rs h
    simp only [parseRulesFuel] at h
    split at h
    · rename_i hlt
      split at h
      · obtain ⟨hb, hc⟩ := ih _ (i + 1) rs h
        exact ⟨fun r hr => ⟨by have := (hb r hr).1; omega, (hb r hr).2⟩, hc⟩
      · obtain ⟨hb, hc⟩ := ih _ (i + 1) rs h
        exact ⟨fun r hr => ⟨by have := (hb r hr).1; omega, (hb r hr).2⟩, hc⟩
      · obtain ⟨hb, hc⟩ := ih _ (i + 1) rs h
        exact ⟨fun r hr => ⟨by have := (hb r hr).1; omega, (hb r hr).2⟩, hc⟩
      · rename_i ruleName heq
        have hend := ruleEndLine_ge lines i (trim (lines.get ⟨i, hlt⟩)) hlt
        cases ho : parseRulesFuel n lines [] (ruleEndLine lines i (trim (lines.get ⟨i, hlt⟩))) with
        | none => rw [ho] at h; cases h
        | some rest =>
          rw [ho] at h
          cases h
          obtain ⟨hb, hc⟩ := ih _ _ rest ho
          constructor
          · intro r hr
            rcases List.mem_cons.mp hr with hr | hr
            · subst hr
              exact ⟨Nat.le_refl _, hend⟩
            · have := (hb r hr).1
              exact ⟨by omega, (hb r hr).2⟩
          · rw [List.chain'_cons']
            refine ⟨fun b hbmem => ?_, hc⟩
            have : b ∈ rest := List.mem_of_mem_head? hbmem
            have := (hb b this).1
            simp only
            omega
      · obtain ⟨hb, hc⟩ := ih _ (i + 1) rs h
        exact ⟨fun r hr => ⟨by have := (hb r hr).1; omega, (hb r hr).2⟩, hc⟩
    · cases h
      simp

/-- The loop run with exactly the remaining line count as fuel succeeds and
computes `parseFrom`. -/
theorem parseRulesFuel_parseFrom (lines : List Str) (pending : List Str) (i : Nat) :
    parseRulesFuel (lines.length - i) lines pending i = some (parseFrom lines pending i) := by
  have h := parseRulesFuel_isSome (lines.length - i) lines pending i (by omega)
  obtain ⟨rs, hrs⟩ := Option.isSome_iff_exists.mp h
  rw [parseFrom, hrs]
  rfl

/-- When the scanner reaches a recognized rule head at index `i` with the
pending comments `pending`, the next record it emits carries the last
pending comment as its description (empty when none is pending), starts at
line `i + 1` and ends at the brace-scan line. -/
theorem parseFrom_head_of_ruleHead (lines pending : List Str) (i : Nat)
    (h : i < lines.length) (ruleName : Str)
    (hclass : classifyLine (trim (lines.get ⟨i, h⟩)) = LineStep.ruleHead ruleName) :
    (parseFrom lines pending i).head? = some
      { name := ruleName
        description := (pending.getLast?).getD []
        start_line := i + 1
        end_line := ruleEndLine lines i (trim (lines.get ⟨i, h⟩)) } := by
  rw [parseFrom]
  have hlen : lines.length - i = (lines.length - (i + 1)) + 1 := by omega
  rw [hlen]
  simp only [parseRulesFuel]
  rw [dif_pos h, hclass]
  have hend := ruleEndLine_ge lines i (trim (lines.get ⟨i, h⟩)) h
  have hs := parseRulesFuel_isSome (lines.length - (i + 1)) lines []
    (ruleEndLine lines i (trim (lines.get ⟨i, h⟩))) (by omega)
  obtain ⟨rest, hrest⟩ := Option.isSome_iff_exists.mp hs
  rw [hrest]
  rfl

/-- Looking up a name right after inserting it finds the new source. -/
theorem lookupAssoc_insertPolicy (st : PolicyStore) (name src : Str) :
    lookupAssoc (insertPolicy st name src) name = some src := by
  induction st with
  | nil => simp [insertPolicy, lookupAssoc]
  | cons kv rest ih =>
    obtain ⟨k, v⟩ := kv
    by_cases hk : k = name
    · subst hk
      simp [insertPolicy, lookupAssoc]
    · simp [insertPolicy, lookupAssoc, hk, ih]

/-- `native_get_rules` is `parse_rules` mapped over the stored sources. -/
theorem lookupAssoc_get_rules (st : PolicyStore) (name : Str) :
    lookupAssoc (native_get_rules st) name = (lookupAssoc st name).map parse_rules := by
  induction st with
  | nil => rfl
  | cons kv rest ih =>
    obtain ⟨k, v⟩ := kv
    by_cases hk : k = name
    · subst hk
      simp [native_get_rules, lookupAssoc]
    · simpa [native_get_rules, lookupAssoc, hk] using ih

/-- C1: for every input text, the scanning loop of `parse_rules` terminates
within one iteration per source line and returns a (possibly empty) record
sequence without error — fuel equal to the line count always suffices, for
unbalanced braces, empty input and comment-only text alike. -/
theorem extract_total (s : Str) :
    parseRulesFuel (rustLines s).length (rustLines s) [] 0 = some (parse_rules s) := by
  have h := parseRulesFuel_parseFrom (rustLines s) [] 0
  simpa [parse_rules] using h

/-- C2: when the scanner reaches a recognized rule head at line index `i`
with accumulated pending comment lines `pending` (no intervening blank,
import/package or other non-comment line has cleared them), the emitted
record's description is exactly the last pending comment line, and the
empty string when no comments are pending. -/
theorem rule_description_last_comment (lines pending : List Str) (i : Nat)
    (h : i < lines.length) (ruleName : Str)
    (hclass : classifyLine (trim (lines.get ⟨i, h⟩)) = LineStep.ruleHead ruleName) :
    (parseFrom lines pending i).head? = some
      { name := ruleName
        description := (pending.getLast?).getD []
        start_line := i + 1
        end_line := ruleEndLine lines i (trim (lines.get ⟨i, h⟩)) } :=
  parseFrom_head_of_ruleHead lines pending i h ruleName hclass

/-- Witness for C2: two consecutive comment lines directly above the head
`allow := 1` give the description `second`, not a concatenation. -/
theorem rule_description_last_comment_witness :
    (parseFrom ["# first".data, "# second".data, "allow := 1".data]
        ["first".data, "second".data] 2).head? = some
      { name := "allow".data
        description := "second".data
        start_line := 3
        end_line := 3 } := by
  have h := rule_description_last_comment
    ["# first".data, "# second".data, "allow := 1".data]
    ["first".data, "second".data] 2 (by decide) ("allow".data) (by decide)
  rw [h]
  decide

/-- C3: for every input text, the records returned by `parse_rules` are in
strictly ascending `start_line` order, matching source order. -/
theorem extract_ordered (s : Str) :
    List.Chain' (fun a b => a.start_line < b.start_line) (parse_rules s) := by
  have h := parseRulesFuel_parseFrom (rustLines s) [] 0
  exact (parseRulesFuel_bounds _ _ _ _ _ h).2

/-- C4: the source `"package p\n\n# desc\ndefault x := 1\n"` yields exactly
one record, named `x`, described `desc`, spanning line 4 to line 4. -/
theorem extract_concrete_scenario :
    parse_rules ("package p\n\n# desc\ndefault x := 1\n".data) =
      [{ name := "x".data, description := "desc".data, start_line := 4, end_line := 4 }] := by
  decide

/-- Counterexample to C5: on the line `default := true`, where no
alphanumeric/underscore run follows the `default` keyword, `parse_rules`
does produce a record at that line (its name is the empty string), contrary
to the claim that no record with that `start_line` exists. -/
theorem default_no_ident_counterexample :
    ∃ r ∈ parse_rules ("default := true".data), r.start_line = 1 ∧ r.name = [] := by
  decide

/-- C5 as amended: a trimmed line beginning with the keyword `default` and
whitespace where no alphanumeric/underscore run follows is still a rule
head — `extract_rule_name` returns the empty name (the first element of the
Rust `split` is the empty string), so `parse_rules` records it. -/
theorem default_no_ident_is_head (line : Str)
    (hdef : startsWith (trim line) ("default ".data) = true)
    (hrest : (trim ((trim line).drop ("default ".data.length))).takeWhile isIdentChar = []) :
    extract_rule_name line = some [] := by
  simp only [extract_rule_name, hdef, if_true, hrest]

/-- Witness for the amended C5 at the line `default := true`. -/
theorem default_no_ident_is_head_witness :
    startsWith (trim ("default := true".data)) ("default ".data) = true ∧
    extract_rule_name ("default := true".data) = some [] :=
  ⟨by decide, default_no_ident_is_head ("default := true".data) (by decide) (by decide)⟩

/-- Counterexample to C6: the line `x == input.y` — a comparison — is
recognized as a rule head named `x` (the remainder `== input.y` starts with
`=`), and `parse_rules` produces a record for that line, contrary to the
claim. -/
theorem comparison_head_counterexample :
    extract_rule_name ("x == input.y".data) = some ("x".data) ∧
    ∃ r ∈ parse_rules ("x == input.y".data), r.start_line = 1 ∧ r.name = "x".data := by
  constructor
  · decide
  · decide

/-- C6 as amended: a trimmed line (not starting with `default `) whose
candidate identifier is non-empty and whose remainder after whitespace
begins with `=` — which includes comparisons such as `x == input.y` — IS
recognized as a rule head named by that identifier. -/
theorem eq_remainder_is_head (line : Str)
    (hdef : startsWith (trim line) ("default ".data) = false)
    (hname : ((trim line).takeWhile isIdentChar).isEmpty = false)
    (heq : startsWith (((trim line).dropWhile isIdentChar).dropWhile isWhite)
      ("=".data) = true) :
    extract_rule_name line = some ((trim line).takeWhile isIdentChar) := by
  simp only [extract_rule_name, hdef, hname, heq, Bool.false_eq_true, if_false,
    Bool.true_or, Bool.or_true, if_true]

/-- Witness for the amended C6 at the line `x == input.y`. -/
theorem eq_remainder_is_head_witness :
    extract_rule_name ("x == input.y".data) = some ("x".data) := by
  have h := eq_remainder_is_head ("x == input.y".data) (by decide) (by decide) (by decide)
  rw [h]
  decide

/-- C7: when a recognized rule head's line contains an opening brace but
the brace-depth scan reaches end-of-text without the depth returning to
zero, the emitted record's `end_line` is the final line number of the
source. -/
theorem unbalanced_end_is_last_line (lines pending : List Str) (i : Nat)
    (h : i < lines.length) (ruleName : Str)
    (hclass : classifyLine (trim (lines.get ⟨i, h⟩)) = LineStep.ruleHead ruleName)
    (hbrace : (trim (lines.get ⟨i, h⟩)).contains lbrace = true)
    (hnb : scanBalances (lines.drop i) 0 false = false) :
    (parseFrom lines pending i).head? = some
      { name := ruleName
        description := (pending.getLast?).getD []
        start_line := i + 1
        end_line := lines.length } := by
  have hend : ruleEndLine lines i (trim (lines.get ⟨i, h⟩)) = lines.length := by
    rw [ruleEndLine, if_pos hbrace, find_rule_end]
    exact findRuleEndFrom_of_no_balance _ _ _ _ _ hnb
  have hh := parseFrom_head_of_ruleHead lines pending i h ruleName hclass
  rw [hend] at hh
  exact hh

/-- Witness for C7: `allow if {` never closed over a two-line source ends
at line 2, the final line. -/
theorem unbalanced_end_is_last_line_witness :
    (parseFrom ["allow if \x7b".data, "x".data] [] 0).head? = some
      { name := "allow".data
        description := []
        start_line := 1
        end_line := 2 } := by
  have h := unbalanced_end_is_last_line ["allow if \x7b".data, "x".data] [] 0
    (by decide) ("allow".data) (by decide) (by decide) (by decide)
  rw [h]
  decide

/-- C8: every record produced by `parse_rules` satisfies
`start_line ≤ end_line`. -/
theorem extract_end_ge_start (s : Str) (r : RuleInfo) (hr : r ∈ parse_rules s) :
    r.start_line ≤ r.end_line := by
  have h := parseRulesFuel_parseFrom (rustLines s) [] 0
  exact ((parseRulesFuel_bounds _ _ _ _ _ h).1 r hr).2

/-- Witness for C8 on the single-rule source `x := 1`. -/
theorem extract_end_ge_start_witness :
    ({ name := "x".data, description := [], start_line := 1, end_line := 1 } : RuleInfo)
        ∈ parse_rules ("x := 1".data) ∧
    ({ name := "x".data, description := [], start_line := 1, end_line := 1 } : RuleInfo).start_line ≤
      ({ name := "x".data, description := [], start_line := 1, end_line := 1 } : RuleInfo).end_line :=
  ⟨by decide, extract_end_ge_start ("x := 1".data) _ (by decide)⟩

/-- C9: after `put(name, source)` — also when it overwrites an existing
entry — `native_get_rules` reports for that name exactly the records
extracted afresh from the newly stored source, whatever the engine's own
verdict was; no stale text is observed. -/
theorem get_rules_after_put (st : PolicyStore) (name source : Str) (engine : EngineParse) :
    lookupAssoc (native_get_rules (native_add_policy st name source engine).1) name =
      some (parse_rules source) := by
  cases engine <;>
    simp [native_add_policy, lookupAssoc_get_rules, lookupAssoc_insertPolicy]

/-- C10: when the engine rejects the source, `native_add_policy` reports a
parse error but has already inserted the rejected source into the policy
store (no rollback), so a subsequent `native_get_rules` scans the
unparseable text rather than any previously stored version. -/
theorem add_policy_error_still_stores (st : PolicyStore) (name source m : Str) :
    (native_add_policy st name source (EngineParse.rejected m)).2 = AddPolicyOutcome.parseErr m ∧
    lookupAssoc (native_get_rules (native_add_policy st name source (EngineParse.rejected m)).1)
        name = some (parse_rules source) := by
  refine ⟨rfl, ?_⟩
  simp [native_add_policy, lookupAssoc_get_rules, lookupAssoc_insertPolicy]

end Regolix
